import Mathlib

/-!
A shallow embedding of the idempotent configuration-section editor of
`internal/nixconfig/nixconfig.go`.

A document is its content, a `List Char`.  The Go methods mutate the
`Config` struct in place; here each method is a function from the old
content to its result paired with the new content, so an operation that
fails before its splice returns the input list unchanged.

The regular expressions of the source are all of the shape
`QuoteMeta(name) + fixed fragment`, where the fragments use only literal
characters and whitespace runs, so each of them is embedded as a
deterministic matcher: at a given start offset such a pattern matches in at
most one way, because every whitespace run is followed by a character that
is not whitespace.  `ReplaceAllString` is embedded as the standard
leftmost, non-overlapping scan, including Go's `$`-variable expansion of
the replacement template (`regexp.Regexp.expand`); word characters of a
`$name` reference are modelled over the ASCII range, which covers every
pattern the editor builds.
-/

namespace Nixconfig

/-- The RE2 whitespace class: tab, newline, form feed, carriage return and
space. -/
def isWs (c : Char) : Bool :=
  c == ' ' || c == '\t' || c == '\n' || c == '\x0c' || c == '\r'

/-- Every character of `l` is regexp whitespace. -/
def AllWsP (l : List Char) : Prop := ∀ c, c ∈ l → isWs c = true

/-- Split `s` into the length of its maximal leading whitespace run and the
remaining text. -/
def wsCount : List Char → Nat × List Char
  | [] => (0, [])
  | c :: rest =>
    if isWs c then
      let p := wsCount rest
      (p.1 + 1, p.2)
    else (0, c :: rest)

/-- The text starts with the literal pattern `p` (an anchored literal
match). -/
def SWb : List Char → List Char → Bool
  | [], _ => true
  | _ :: _, [] => false
  | p :: ps, c :: cs => p == c && SWb ps cs

/-- First offset at which the literal pattern `pat` occurs in the text
(Go `strings.Index`). -/
def indexOfSub (pat : List Char) : List Char → Option Nat
  | [] => if SWb pat [] then some 0 else none
  | c :: rest =>
    if SWb pat (c :: rest) then some 0
    else (indexOfSub pat rest).map (fun k => k + 1)

/-- The literal pattern `pat` occurs somewhere in the text
(Go `regexp.MatchString` on a quoted literal). -/
def hasSubB (pat : List Char) : List Char → Bool
  | [] => SWb pat []
  | c :: rest => SWb pat (c :: rest) || hasSubB pat rest

/-- Length consumed at the head of `s` by the regexp tail of the
category-opening pattern: a whitespace run, the equals sign, a whitespace
run, the opening brace. -/
def matchEqBraceLen (s : List Char) : Option Nat :=
  let p := wsCount s
  match p.2 with
  | '=' :: s2 =>
    let q := wsCount s2
    match q.2 with
    | '\x7b' :: _ => some (p.1 + 1 + q.1 + 1)
    | _ => none
  | _ => none

/-- Length of the category-opening match (the pattern of
`Config.CategoryExists`, nixconfig.go line 22) at the head of `s`. -/
def matchCatLen (name s : List Char) : Option Nat :=
  if SWb name s then
    (matchEqBraceLen (s.drop name.length)).map (fun n => name.length + n)
  else none

/-- End offset of the leftmost match of the category-opening pattern
(Go `re.FindStringIndex(content)[1]`). -/
def findCatEnd (name : List Char) : List Char → Option Nat
  | [] => matchCatLen name []
  | c :: rest =>
    match matchCatLen name (c :: rest) with
    | some n => some n
    | none => (findCatEnd name rest).map (fun k => k + 1)

/-- `Config.CategoryExists`: the category-opening pattern matches somewhere
in the content. -/
def CategoryExists (category s : List Char) : Bool :=
  (findCatEnd category s).isSome

/-- The two-character closing marker of a section. -/
def closeMarker : List Char := ['\x7d', ';']

/-- `Config.PackageExistsInCategory`: the entry pattern occurs between the
end of the category's opening marker and the first closing marker after
it. -/
def PackageExistsInCategory (category packageName s : List Char) : Bool :=
  match findCatEnd category s with
  | none => false
  | some startPos =>
    match indexOfSub closeMarker (s.drop startPos) with
    | none => false
    | some endPos =>
      hasSubB (packageName ++ (".enable").toList) ((s.drop startPos).take endPos)

/-- Word characters of a `$name` reference in a Go replacement template
(`regexp.extract`), modelled over the ASCII range. -/
def isWordChar (c : Char) : Bool := c.isAlpha || c.isDigit || c == '_'

/-- Maximal leading run of word characters, and the rest. -/
def takeWord : List Char → List Char × List Char
  | [] => ([], [])
  | c :: rest =>
    if isWordChar c then
      let p := takeWord rest
      (c :: p.1, p.2)
    else ([], c :: rest)

/-- Value of one `$name` reference.  The editor's patterns have a single
capture group, the whole match `m`, so the reference named `0` yields the
match and every other index or name yields the empty string (indices with
leading zeros and out-of-range indices fall back to empty in
`regexp.Regexp.expand`). -/
def expandVar (m nm : List Char) : List Char := if nm = ['0'] then m else []

/-- Fuel-indexed embedding of Go's replacement-template expansion
(`regexp.Regexp.expand`): a doubled dollar is a literal dollar, a
dollar-name or dollar-brace-name-brace is a group reference, and a
malformed dollar stands for itself.  Any fuel at least the template length
gives the same result. -/
def expandFuel (m : List Char) : Nat → List Char → List Char
  | 0, t => t
  | _ + 1, [] => []
  | f + 1, c :: rest =>
    if c = '$' then
      match rest with
      | '$' :: rest2 => '$' :: expandFuel m f rest2
      | '\x7b' :: t1 =>
        let w := takeWord t1
        if w.1.isEmpty then '$' :: expandFuel m f rest
        else
          match w.2 with
          | '\x7d' :: r2 => expandVar m w.1 ++ expandFuel m f r2
          | _ => '$' :: expandFuel m f rest
      | _ =>
        let w := takeWord rest
        if w.1.isEmpty then '$' :: expandFuel m f rest
        else expandVar m w.1 ++ expandFuel m f w.2
    else c :: expandFuel m f rest

/-- Go template expansion of `t` against the matched text `m`. -/
def expandTemplate (m t : List Char) : List Char := expandFuel m t.length t

/-- The text contains no dollar sign, so template expansion leaves it
unchanged. -/
def noDollar (t : List Char) : Bool := t.all (fun c => c != '$')

/-- Length consumed at the head of `s` by the regexp tail of the
disabled-entry pattern: whitespace run, equals sign, whitespace run, the
word false, whitespace run, semicolon. -/
def matchFalseTailLen (s : List Char) : Option Nat :=
  let p := wsCount s
  match p.2 with
  | '=' :: s2 =>
    let q := wsCount s2
    if SWb ("false").toList q.2 then
      let r := wsCount (q.2.drop 5)
      match r.2 with
      | ';' :: _ => some (p.1 + 1 + q.1 + 5 + r.1 + 1)
      | _ => none
    else none
  | _ => none

/-- Length of the disabled-entry match (the pattern of
`Config.EnablePackage`, nixconfig.go line 52) at the head of `s`. -/
def matchDisabledLen (packageName s : List Char) : Option Nat :=
  let pat := packageName ++ (".enable").toList
  if SWb pat s then
    (matchFalseTailLen (s.drop pat.length)).map (fun n => pat.length + n)
  else none

/-- The disabled-entry pattern matches somewhere in the content
(Go `re.MatchString`). -/
def disabledAnyB (packageName : List Char) : List Char → Bool
  | [] => (matchDisabledLen packageName []).isSome
  | c :: rest =>
    (matchDisabledLen packageName (c :: rest)).isSome ||
      disabledAnyB packageName rest

/-- The replacement template of `EnablePackage`:
the package name followed by the canonical enabled tail. -/
def enabledText (packageName : List Char) : List Char :=
  packageName ++ (".enable = true;").toList

/-- The canonical disabled declaration, one instance of the disabled-entry
pattern. -/
def disabledText (packageName : List Char) : List Char :=
  packageName ++ (".enable = false;").toList

/-- Fuel-indexed embedding of Go `ReplaceAllString` for the disabled-entry
pattern: each leftmost non-overlapping match is replaced by the expanded
template, all other text is copied.  Any fuel at least `s.length` gives the
same result. -/
def enableScanFuel (packageName : List Char) : Nat → List Char → List Char
  | 0, s => s
  | _ + 1, [] => []
  | f + 1, c :: rest =>
    match matchDisabledLen packageName (c :: rest) with
    | some n =>
      expandTemplate ((c :: rest).take n) (enabledText packageName) ++
        enableScanFuel packageName f ((c :: rest).drop n)
    | none => c :: enableScanFuel packageName f rest

/-- Go `re.ReplaceAllString(content, newPattern)` for the disabled-entry
pattern. -/
def enableScanAll (packageName s : List Char) : List Char :=
  enableScanFuel packageName s.length s

/-- `Config.EnablePackage`: reports whether a change was made, and the new
content. -/
def EnablePackage (packageName s : List Char) : Bool × List Char :=
  if disabledAnyB packageName s then (true, enableScanAll packageName s)
  else (false, s)

/-- The typed failures of the mutators (the `fmt.Errorf` cases of
nixconfig.go). -/
inductive NixErr where
  | categoryNotFound (category : List Char)
  | categoryBraceNotFound (category : List Char)
  | appsNotFound
  | noClosingBrace
deriving DecidableEq

/-- Text spliced in front of the section's closing marker by
`AddPackageToCategory`. -/
def packageContent (packageName : List Char) : List Char :=
  ("\n      ").toList ++ packageName ++ (".enable = true;\n    ").toList

/-- `Config.AddPackageToCategory`: typed error with the content untouched,
or the splice immediately before the section's first closing marker. -/
def AddPackageToCategory (category packageName s : List Char) :
    Option NixErr × List Char :=
  match findCatEnd category s with
  | none => (some (NixErr.categoryNotFound category), s)
  | some startPos =>
    match indexOfSub closeMarker (s.drop startPos) with
    | none => (some (NixErr.categoryBraceNotFound category), s)
    | some endPos =>
      let a := startPos + endPos
      (none, s.take a ++ packageContent packageName ++ s.drop a)

/-- The complete section block spliced by `CreateCategory`: opening marker,
one enabled entry, closing marker. -/
def newCategoryText (category packageName : List Char) : List Char :=
  ("\n    ").toList ++ category ++ (" = \x7b\n      ").toList ++
    packageName ++ (".enable = true;\n    \x7d;\n").toList

/-- The container name hardwired in the source. -/
def appsName : List Char := ("apps").toList

/-- `Config.CreateCategory`: requires the apps container and splices the
new section immediately after its opening marker. -/
def CreateCategory (category packageName s : List Char) :
    Option NixErr × List Char :=
  match findCatEnd appsName s with
  | none => (some NixErr.appsNotFound, s)
  | some insertPos =>
    (none,
      s.take insertPos ++ newCategoryText category packageName ++
        s.drop insertPos)

/-- Last offset of a closing brace in the content
(Go `strings.LastIndex`). -/
def lastBraceIndex : List Char → Option Nat
  | [] => none
  | c :: rest =>
    match lastBraceIndex rest with
    | some k => some (k + 1)
    | none => if c = '\x7d' then some 0 else none

/-- The empty container block inserted by `EnsureAppsSectionExists`. -/
def appsSectionText : List Char := ("\n  apps = \x7b\n  \x7d;\n\n").toList

/-- `Config.EnsureAppsSectionExists`. -/
def EnsureAppsSectionExists (s : List Char) : Option NixErr × List Char :=
  if CategoryExists appsName s then (none, s)
  else
    match lastBraceIndex s with
    | none => (some NixErr.noClosingBrace, s)
    | some k => (none, s.take k ++ appsSectionText ++ s.drop k)

/-- `Config.AddOrEnablePackage`, the upsert orchestrator.  The Go code
discards both `EnablePackage`'s boolean and `AddPackageToCategory`'s error:
in those branches the state is whatever the mutator left and the reported
outcome is success. -/
def AddOrEnablePackage (category packageName s : List Char) :
    Option NixErr × List Char :=
  if CategoryExists category s then
    if PackageExistsInCategory category packageName s then
      (none, (EnablePackage packageName s).2)
    else
      (none, (AddPackageToCategory category packageName s).2)
  else CreateCategory category packageName s

/-- Declarative shape of a category-opening marker for `name` at offset `i`
of `s`, ending at offset `j`: the name, optional whitespace, the equals
sign, optional whitespace, the opening brace. -/
def MarkerAt (name s : List Char) (i j : Nat) : Prop :=
  ∃ sp1 sp2 v, AllWsP sp1 ∧ AllWsP sp2 ∧
    s.drop i = name ++ sp1 ++ '=' :: (sp2 ++ '\x7b' :: v) ∧
    j = i + name.length + sp1.length + sp2.length + 2

/-- Declarative: the closing marker occurs at offset `e` of `t`. -/
def CloseAt (t : List Char) (e : Nat) : Prop :=
  ∃ w, t.drop e = '\x7d' :: ';' :: w

/-- Declarative: `k` is the offset of the last closing brace of `s`. -/
def LastBraceAt (s : List Char) (k : Nat) : Prop :=
  (∃ w, s.drop k = '\x7d' :: w) ∧
    ∀ k', k < k' → ¬ ∃ w, s.drop k' = '\x7d' :: w

/-- An anchored literal match succeeds exactly on texts extending the
pattern. -/
theorem SWb_iff (p s : List Char) : SWb p s = true ↔ ∃ v, s = p ++ v := by
  induction p generalizing s with
  | nil => simp [SWb]
  | cons a ps ih =>
    cases s with
    | nil => simp [SWb]
    | cons c cs =>
      simp only [SWb, Bool.and_eq_true, beq_iff_eq, List.cons_append]
      constructor
      · rintro ⟨rfl, h⟩
        obtain ⟨v, rfl⟩ := (ih cs).mp h
        exact ⟨v, rfl⟩
      · rintro ⟨v, hv⟩
        injection hv with h1 h2
        exact ⟨h1.symm, (ih cs).mpr ⟨v, h2⟩⟩

/-- A pattern is an anchored match of itself followed by anything. -/
theorem SWb_self_append (p x : List Char) : SWb p (p ++ x) = true :=
  (SWb_iff p (p ++ x)).mpr ⟨x, rfl⟩

/-- Substring search succeeds exactly on texts with a literal occurrence. -/
theorem hasSubB_iff (pat s : List Char) :
    hasSubB pat s = true ↔ ∃ u v, s = u ++ pat ++ v := by
  induction s with
  | nil =>
    simp only [hasSubB]
    rw [SWb_iff]
    constructor
    · rintro ⟨v, hv⟩
      exact ⟨[], v, by simpa using hv⟩
    · rintro ⟨u, v, huv⟩
      have h3 : u = [] ∧ pat = [] ∧ v = [] := by simpa using huv.symm
      obtain ⟨rfl, rfl, rfl⟩ := h3
      exact ⟨[], rfl⟩
  | cons c rest ih =>
    simp only [hasSubB, Bool.or_eq_true]
    rw [SWb_iff, ih]
    constructor
    · rintro (⟨v, hv⟩ | ⟨u, v, huv⟩)
      · exact ⟨[], v, by simpa using hv⟩
      · exact ⟨c :: u, v, by simp [huv]⟩
    · rintro ⟨u, v, huv⟩
      cases u with
      | nil => exact Or.inl ⟨v, by simpa using huv⟩
      | cons b u2 =>
        right
        have h3 : c = b ∧ rest = u2 ++ (pat ++ v) := by simpa using huv
        exact ⟨u2, v, by simp [h3.2]⟩

/-- `indexOfSub` returns exactly the first offset of a literal
occurrence. -/
theorem indexOfSub_some_iff (pat s : List Char) (e : Nat) :
    indexOfSub pat s = some e ↔
      SWb pat (s.drop e) = true ∧ ∀ e', e' < e → SWb pat (s.drop e') = false := by
  induction s generalizing e with
  | nil =>
    by_cases h : SWb pat [] = true
    · simp only [indexOfSub, if_pos h, List.drop_nil]
      constructor
      · intro h0
        injection h0 with h0
        subst h0
        exact ⟨h, fun e' he' => absurd he' (Nat.not_lt_zero e')⟩
      · rintro ⟨-, hmin⟩
        cases e with
        | zero => rfl
        | succ k =>
          have h0 := hmin 0 (Nat.succ_pos k)
          rw [h0] at h
          exact Bool.noConfusion h
    · simp only [indexOfSub, if_neg h, List.drop_nil]
      constructor
      · rintro ⟨⟩
      · rintro ⟨h1, -⟩
        exact absurd h1 h
  | cons c rest ih =>
    by_cases h : SWb pat (c :: rest) = true
    · simp only [indexOfSub, if_pos h]
      constructor
      · intro h0
        injection h0 with h0
        subst h0
        exact ⟨by simpa using h, fun e' he' => absurd he' (Nat.not_lt_zero e')⟩
      · rintro ⟨-, hmin⟩
        cases e with
        | zero => rfl
        | succ k =>
          have h0 := hmin 0 (Nat.succ_pos k)
          simp only [List.drop_zero] at h0
          rw [h0] at h
          exact Bool.noConfusion h
    · simp only [indexOfSub, if_neg h, Option.map_eq_some']
      cases e with
      | zero =>
        constructor
        · rintro ⟨k, -, hk⟩
          exact absurd hk (Nat.succ_ne_zero k)
        · rintro ⟨h1, -⟩
          simp only [List.drop_zero] at h1
          exact absurd h1 h
      | succ m =>
        constructor
        · rintro ⟨k, hk, hke⟩
          have hkm : k = m := by omega
          rw [hkm] at hk
          obtain ⟨h1, hmin⟩ := (ih m).mp hk
          refine ⟨by simpa using h1, ?_⟩
          intro e' he'
          cases e' with
          | zero =>
            simp only [List.drop_zero]
            simpa using h
          | succ l =>
            have := hmin l (by omega)
            simpa using this
        · rintro ⟨h1, hmin⟩
          refine ⟨m, (ih m).mpr ⟨by simpa using h1, ?_⟩, rfl⟩
          intro l hl
          have := hmin (l + 1) (by omega)
          simpa using this

/-- `indexOfSub` fails exactly when the pattern occurs nowhere. -/
theorem indexOfSub_none_iff (pat s : List Char) :
    indexOfSub pat s = none ↔ ∀ e, SWb pat (s.drop e) = false := by
  induction s with
  | nil =>
    by_cases h : SWb pat [] = true
    · simp only [indexOfSub, if_pos h]
      constructor
      · rintro ⟨⟩
      · intro hall
        have h0 := hall 0
        simp only [List.drop_nil] at h0
        rw [h0] at h
        exact Bool.noConfusion h
    · simp only [indexOfSub, if_neg h, List.drop_nil]
      refine ⟨fun _ e => ?_, fun _ => trivial⟩
      simpa using h
  | cons c rest ih =>
    by_cases h : SWb pat (c :: rest) = true
    · simp only [indexOfSub, if_pos h]
      constructor
      · rintro ⟨⟩
      · intro hall
        have h0 := hall 0
        simp only [List.drop_zero] at h0
        rw [h0] at h
        exact Bool.noConfusion h
    · simp only [indexOfSub, if_neg h, Option.map_eq_none', ih]
      constructor
      · intro hall e
        cases e with
        | zero =>
          simp only [List.drop_zero]
          simpa using h
        | succ m => simpa using hall m
      · intro hall e
        have := hall (e + 1)
        simpa using this

theorem wsCount_cons_ws (c : Char) (rest : List Char) (h : isWs c = true) :
    wsCount (c :: rest) = ((wsCount rest).1 + 1, (wsCount rest).2) := by
  simp [wsCount, h]

theorem wsCount_cons_not (c : Char) (rest : List Char) (h : isWs c = false) :
    wsCount (c :: rest) = (0, c :: rest) := by
  simp [wsCount, h]

/-- The whitespace split: a leading all-whitespace run, then a rest whose
head is not whitespace. -/
theorem wsCount_spec (s : List Char) :
    ∃ a, s = a ++ (wsCount s).2 ∧ AllWsP a ∧ a.length = (wsCount s).1 ∧
      ∀ c w, (wsCount s).2 = c :: w → isWs c = false := by
  induction s with
  | nil =>
    refine ⟨[], rfl, ?_, rfl, ?_⟩
    · intro c hc
      exact absurd hc (List.not_mem_nil c)
    · intro c w h
      exact absurd h (by simp [wsCount])
  | cons c rest ih =>
    by_cases h : isWs c = true
    · obtain ⟨a, ha, haws, halen, hahd⟩ := ih
      rw [wsCount_cons_ws c rest h]
      refine ⟨c :: a, ?_, ?_, ?_, ?_⟩
      · simpa using ha
      · intro x hx
        rcases List.mem_cons.mp hx with rfl | hx2
        · exact h
        · exact haws x hx2
      · simpa using halen
      · exact hahd
    · have hf : isWs c = false := by simpa using h
      rw [wsCount_cons_not c rest hf]
      refine ⟨[], rfl, ?_, rfl, ?_⟩
      · intro x hx
        exact absurd hx (List.not_mem_nil x)
      · intro x w hxw
        injection hxw with h1 h2
        rw [h1] at hf
        exact hf

/-- Computing the whitespace split on an explicit decomposition. -/
theorem wsCount_ws_append (a b : List Char) (ha : AllWsP a)
    (hb : ∀ c w, b = c :: w → isWs c = false) :
    wsCount (a ++ b) = (a.length, b) := by
  induction a with
  | nil =>
    cases b with
    | nil => rfl
    | cons c w => simpa using wsCount_cons_not c w (hb c w rfl)
  | cons x a2 ih =>
    have hx : isWs x = true := ha x (List.mem_cons_self x a2)
    have ih2 := ih (fun c hc => ha c (List.mem_cons_of_mem x hc))
    rw [List.cons_append, wsCount_cons_ws x (a2 ++ b) hx, ih2]
    simp

/-- Let-free unfolding of `matchEqBraceLen`. -/
theorem matchEqBraceLen_eq (s : List Char) :
    matchEqBraceLen s =
      match (wsCount s).2 with
      | '=' :: s2 =>
        (match (wsCount s2).2 with
         | '\x7b' :: _ => some ((wsCount s).1 + 1 + (wsCount s2).1 + 1)
         | _ => none)
      | _ => none := rfl

theorem matchEqBraceLen_some_iff (s : List Char) (n : Nat) :
    matchEqBraceLen s = some n ↔
      ∃ sp1 sp2 v, AllWsP sp1 ∧ AllWsP sp2 ∧
        s = sp1 ++ '=' :: (sp2 ++ '\x7b' :: v) ∧
        n = sp1.length + sp2.length + 2 := by
  constructor
  · intro h
    rw [matchEqBraceLen_eq] at h
    obtain ⟨a, ha, haws, halen, -⟩ := wsCount_spec s
    split at h
    · rename_i s2 heq
      obtain ⟨b, hb, hbws, hblen, -⟩ := wsCount_spec s2
      split at h
      · rename_i v heq2
        injection h with h
        refine ⟨a, b, v, haws, hbws, ?_, ?_⟩
        · rw [ha, heq, hb, heq2]
        · omega
      · exact Option.noConfusion h
    · exact Option.noConfusion h
  · rintro ⟨sp1, sp2, v, h1, h2, rfl, rfl⟩
    have hbrace : isWs '\x7b' = false := by decide
    have heqs : isWs '=' = false := by decide
    unfold matchEqBraceLen
    rw [wsCount_ws_append sp1 ('=' :: (sp2 ++ '\x7b' :: v)) h1
      (fun c w hcw => by injection hcw with hc hw; rw [← hc]; exact heqs)]
    simp only
    rw [wsCount_ws_append sp2 ('\x7b' :: v) h2
      (fun c w hcw => by injection hcw with hc hw; rw [← hc]; exact hbrace)]
    simp only
    congr 1
    omega

theorem matchCatLen_some_iff (name s : List Char) (n : Nat) :
    matchCatLen name s = some n ↔
      ∃ sp1 sp2 v, AllWsP sp1 ∧ AllWsP sp2 ∧
        s = name ++ (sp1 ++ '=' :: (sp2 ++ '\x7b' :: v)) ∧
        n = name.length + sp1.length + sp2.length + 2 := by
  unfold matchCatLen
  by_cases hs : SWb name s = true
  · rw [if_pos hs]
    obtain ⟨v0, rfl⟩ := (SWb_iff name s).mp hs
    rw [List.drop_left]
    simp only [Option.map_eq_some']
    constructor
    · rintro ⟨k, hk, rfl⟩
      obtain ⟨sp1, sp2, v, h1, h2, rfl, rfl⟩ := (matchEqBraceLen_some_iff v0 k).mp hk
      exact ⟨sp1, sp2, v, h1, h2, rfl, by omega⟩
    · rintro ⟨sp1, sp2, v, h1, h2, heq, rfl⟩
      have hv0 : v0 = sp1 ++ '=' :: (sp2 ++ '\x7b' :: v) :=
        List.append_cancel_left heq
      subst hv0
      exact ⟨sp1.length + sp2.length + 2,
        (matchEqBraceLen_some_iff _ _).mpr ⟨sp1, sp2, v, h1, h2, rfl, rfl⟩,
        by omega⟩
  · rw [if_neg hs]
    constructor
    · rintro ⟨⟩
    · rintro ⟨sp1, sp2, v, h1, h2, heq, -⟩
      exact absurd ((SWb_iff name s).mpr ⟨_, heq⟩) hs

theorem matchCatLen_nil (name : List Char) : matchCatLen name [] = none := by
  cases h : matchCatLen name [] with
  | none => rfl
  | some n =>
    obtain ⟨sp1, sp2, v, -, -, heq, -⟩ := (matchCatLen_some_iff name [] n).mp h
    exact absurd heq.symm (by simp)

theorem findCatEnd_none_iff (name s : List Char) :
    findCatEnd name s = none ↔ ∀ i, matchCatLen name (s.drop i) = none := by
  induction s with
  | nil =>
    simp only [findCatEnd, List.drop_nil]
    constructor
    · intro h i
      exact h
    · intro h
      exact h 0
  | cons c rest ih =>
    simp only [findCatEnd]
    cases hm : matchCatLen name (c :: rest) with
    | some n =>
      simp only [hm]
      constructor
      · rintro ⟨⟩
      · intro h
        have h0 := h 0
        simp only [List.drop_zero] at h0
        rw [hm] at h0
        exact Option.noConfusion h0
    | none =>
      simp only [hm, Option.map_eq_none', ih]
      constructor
      · intro h i
        cases i with
        | zero => simpa using hm
        | succ k => simpa using h k
      · intro h i
        have := h (i + 1)
        simpa using this

theorem findCatEnd_some_iff (name s : List Char) (j : Nat) :
    findCatEnd name s = some j ↔
      ∃ i n, matchCatLen name (s.drop i) = some n ∧ j = i + n ∧
        ∀ i', i' < i → matchCatLen name (s.drop i') = none := by
  induction s generalizing j with
  | nil =>
    rw [findCatEnd, matchCatLen_nil]
    simp only [List.drop_nil, matchCatLen_nil]
    constructor
    · rintro ⟨⟩
    · rintro ⟨i, n, hm, -, -⟩
      exact Option.noConfusion hm
  | cons c rest ih =>
    simp only [findCatEnd]
    cases hm : matchCatLen name (c :: rest) with
    | some n =>
      simp only [hm]
      constructor
      · intro h
        injection h with h
        exact ⟨0, n, by simpa using hm, by omega,
          fun i' hi' => absurd hi' (Nat.not_lt_zero i')⟩
      · rintro ⟨i, k, hk, rfl, hmin⟩
        cases i with
        | zero =>
          simp only [List.drop_zero] at hk
          rw [hm] at hk
          injection hk with hk
          simp [hk]
        | succ m =>
          have h0 := hmin 0 (Nat.succ_pos m)
          simp only [List.drop_zero] at h0
          rw [hm] at h0
          exact Option.noConfusion h0
    | none =>
      simp only [hm, Option.map_eq_some']
      constructor
      · rintro ⟨k, hk, rfl⟩
        obtain ⟨i, n, hmn, rfl, hmin⟩ := (ih k).mp hk
        refine ⟨i + 1, n, by simpa using hmn, by omega, ?_⟩
        intro i' hi'
        cases i' with
        | zero => simpa using hm
        | succ l =>
          have := hmin l (by omega)
          simpa using this
      · rintro ⟨i, n, hmn, rfl, hmin⟩
        cases i with
        | zero =>
          simp only [List.drop_zero] at hmn
          rw [hm] at hmn
          exact Option.noConfusion hmn
        | succ m =>
          refine ⟨m + n, (ih (m + n)).mpr ⟨m, n, by simpa using hmn, rfl, ?_⟩,
            by omega⟩
          intro l hl
          have := hmin (l + 1) (by omega)
          simpa using this

theorem headNotWs_intro (b : List Char) (c0 : Char) (h0 : b.head? = some c0)
    (hc : isWs c0 = false) : ∀ c w, b = c :: w → isWs c = false := by
  intro c w hcw
  rw [hcw] at h0
  simp only [List.head?_cons, Option.some_inj] at h0
  rw [h0]
  exact hc

/-- A position-indexed property of drops holds somewhere exactly when a
decomposition with that property exists. -/
theorem exists_drop_iff (s : List Char) (P : List Char → Prop) :
    (∃ i, P (s.drop i)) ↔ ∃ u t, s = u ++ t ∧ P t := by
  constructor
  · rintro ⟨i, hi⟩
    exact ⟨s.take i, s.drop i, (List.take_append_drop i s).symm, hi⟩
  · rintro ⟨u, t, rfl, ht⟩
    exact ⟨u.length, by rwa [List.drop_left]⟩

theorem findCatEnd_isSome_iff (name s : List Char) :
    (findCatEnd name s).isSome = true ↔
      ∃ i, matchCatLen name (s.drop i) ≠ none := by
  rw [Option.isSome_iff_ne_none]
  constructor
  · intro h
    by_contra hc
    push_neg at hc
    exact h ((findCatEnd_none_iff name s).mpr hc)
  · rintro ⟨i, hi⟩ h
    exact hi (((findCatEnd_none_iff name s).mp h) i)

/-- Let-free unfolding of `matchFalseTailLen`. -/
theorem matchFalseTailLen_eq (s : List Char) :
    matchFalseTailLen s =
      match (wsCount s).2 with
      | '=' :: s2 =>
        (if SWb ("false").toList (wsCount s2).2 then
          (match (wsCount ((wsCount s2).2.drop 5)).2 with
           | ';' :: _ =>
             some ((wsCount s).1 + 1 + (wsCount s2).1 + 5 +
               (wsCount ((wsCount s2).2.drop 5)).1 + 1)
           | _ => none)
         else none)
      | _ => none := rfl

theorem matchFalseTailLen_some_iff (s : List Char) (n : Nat) :
    matchFalseTailLen s = some n ↔
      ∃ sp1 sp2 sp3 v, AllWsP sp1 ∧ AllWsP sp2 ∧ AllWsP sp3 ∧
        s = sp1 ++ '=' :: (sp2 ++ ("false").toList ++ (sp3 ++ ';' :: v)) ∧
        n = sp1.length + sp2.length + sp3.length + 7 := by
  constructor
  · intro h
    rw [matchFalseTailLen_eq] at h
    obtain ⟨a, ha, haws, halen, -⟩ := wsCount_spec s
    split at h
    · rename_i s2 heq
      obtain ⟨b, hb, hbws, hblen, -⟩ := wsCount_spec s2
      split at h
      · rename_i hsw
        obtain ⟨w, hw⟩ := (SWb_iff _ _).mp hsw
        obtain ⟨d, hdw, hdws, hdlen, -⟩ := wsCount_spec ((wsCount s2).2.drop 5)
        split at h
        · rename_i v heq2
          injection h with h
          have hdrop : (wsCount s2).2.drop 5 = w := by
            rw [hw]
            have h5 : (("false").toList).length = 5 := by decide
            rw [← h5, List.drop_left]
          rw [hdrop] at hdw heq2 hdlen
          refine ⟨a, b, d, v, haws, hbws, hdws, ?_, ?_⟩
          · rw [ha, heq, hb, hw, hdw, heq2]
            simp [List.append_assoc]
          · rw [hdrop] at h
            omega
        · exact Option.noConfusion h
      · exact Option.noConfusion h
    · exact Option.noConfusion h
  · rintro ⟨sp1, sp2, sp3, v, h1, h2, h3, rfl, rfl⟩
    rw [matchFalseTailLen_eq]
    rw [wsCount_ws_append sp1 ('=' :: (sp2 ++ ("false").toList ++ (sp3 ++ ';' :: v))) h1
      (headNotWs_intro _ '=' rfl (by decide))]
    simp only
    have hx : sp2 ++ ("false").toList ++ (sp3 ++ ';' :: v) =
        sp2 ++ (("false").toList ++ (sp3 ++ ';' :: v)) := by
      simp [List.append_assoc]
    rw [hx]
    rw [wsCount_ws_append sp2 (("false").toList ++ (sp3 ++ ';' :: v)) h2
      (headNotWs_intro _ 'f' rfl (by decide))]
    simp only
    rw [if_pos (SWb_self_append ("false").toList (sp3 ++ ';' :: v))]
    have h5 : (5 : Nat) = (("false").toList).length := by decide
    rw [h5, List.drop_left]
    rw [wsCount_ws_append sp3 (';' :: v) h3
      (headNotWs_intro _ ';' rfl (by decide))]
    simp only
    congr 1
    omega

theorem matchDisabledLen_some_iff (pkg s : List Char) (n : Nat) :
    matchDisabledLen pkg s = some n ↔
      ∃ sp1 sp2 sp3 v, AllWsP sp1 ∧ AllWsP sp2 ∧ AllWsP sp3 ∧
        s = (pkg ++ (".enable").toList) ++
          (sp1 ++ '=' :: (sp2 ++ ("false").toList ++ (sp3 ++ ';' :: v))) ∧
        n = pkg.length + sp1.length + sp2.length + sp3.length + 14 := by
  unfold matchDisabledLen
  by_cases hs : SWb (pkg ++ (".enable").toList) s = true
  · rw [if_pos hs]
    obtain ⟨v0, rfl⟩ := (SWb_iff _ s).mp hs
    rw [List.drop_left]
    simp only [Option.map_eq_some']
    have h7 : ((".enable").toList).length = 7 := by decide
    constructor
    · rintro ⟨k, hk, rfl⟩
      obtain ⟨sp1, sp2, sp3, v, h1, h2, h3, rfl, rfl⟩ :=
        (matchFalseTailLen_some_iff v0 k).mp hk
      refine ⟨sp1, sp2, sp3, v, h1, h2, h3, rfl, ?_⟩
      simp only [List.length_append, h7]
      omega
    · rintro ⟨sp1, sp2, sp3, v, h1, h2, h3, heq, rfl⟩
      have hv0 : v0 = sp1 ++ '=' :: (sp2 ++ ("false").toList ++ (sp3 ++ ';' :: v)) :=
        List.append_cancel_left heq
      subst hv0
      refine ⟨sp1.length + sp2.length + sp3.length + 7,
        (matchFalseTailLen_some_iff _ _).mpr ⟨sp1, sp2, sp3, v, h1, h2, h3, rfl, rfl⟩, ?_⟩
      simp only [List.length_append, h7]
      omega
  · rw [if_neg hs]
    constructor
    · rintro ⟨⟩
    · rintro ⟨sp1, sp2, sp3, v, -, -, -, heq, -⟩
      exact absurd ((SWb_iff _ s).mpr ⟨_, heq⟩) hs

theorem matchDisabledLen_none_of (pkg s : List Char)
    (h : SWb (pkg ++ (".enable").toList) s = false) :
    matchDisabledLen pkg s = none := by
  cases hm : matchDisabledLen pkg s with
  | none => rfl
  | some n =>
    obtain ⟨sp1, sp2, sp3, v, -, -, -, heq, -⟩ :=
      (matchDisabledLen_some_iff pkg s n).mp hm
    rw [(SWb_iff _ s).mpr ⟨_, heq⟩] at h
    exact Bool.noConfusion h

theorem matchDisabledLen_bounds (pkg s : List Char) (n : Nat)
    (h : matchDisabledLen pkg s = some n) : 0 < n ∧ n ≤ s.length := by
  obtain ⟨sp1, sp2, sp3, v, -, -, -, heq, rfl⟩ :=
    (matchDisabledLen_some_iff pkg s n).mp h
  have h7 : ((".enable").toList).length = 7 := by decide
  have h5 : (("false").toList).length = 5 := by decide
  constructor
  · omega
  · rw [heq]
    simp only [List.length_append, List.length_cons, h7, h5]
    omega

theorem disabledAnyB_iff (pkg s : List Char) :
    disabledAnyB pkg s = true ↔ ∃ i, matchDisabledLen pkg (s.drop i) ≠ none := by
  induction s with
  | nil =>
    simp only [disabledAnyB, List.drop_nil, Option.isSome_iff_ne_none]
    exact ⟨fun h => ⟨0, h⟩, fun ⟨_, h⟩ => h⟩
  | cons c rest ih =>
    simp only [disabledAnyB, Bool.or_eq_true, Option.isSome_iff_ne_none, ih]
    constructor
    · rintro (h | ⟨i, hi⟩)
      · exact ⟨0, by simpa using h⟩
      · exact ⟨i + 1, by simpa using hi⟩
    · rintro ⟨i, hi⟩
      cases i with
      | zero => exact Or.inl (by simpa using hi)
      | succ k => exact Or.inr ⟨k, by simpa using hi⟩

theorem noDollar_append (a b : List Char) :
    noDollar (a ++ b) = (noDollar a && noDollar b) := by
  simp [noDollar, List.all_append]

theorem expandFuel_noDollar (m t : List Char) (f : Nat) (hf : t.length ≤ f)
    (hd : noDollar t = true) : expandFuel m f t = t := by
  induction t generalizing f with
  | nil => cases f <;> rfl
  | cons c rest ih =>
    have hc : (c != '$') = true ∧ noDollar rest = true := by
      simpa [noDollar] using hd
    cases f with
    | zero =>
      simp only [List.length_cons] at hf
      omega
    | succ f2 =>
      have hcne : ¬ c = '$' := by simpa using hc.1
      have hrest : rest.length ≤ f2 := by
        simp only [List.length_cons] at hf
        omega
      simp only [expandFuel, if_neg hcne]
      rw [ih f2 hrest hc.2]

theorem expandTemplate_noDollar (m t : List Char) (hd : noDollar t = true) :
    expandTemplate m t = t :=
  expandFuel_noDollar m t t.length le_rfl hd

theorem noDollar_enabledText (pkg : List Char) (h : noDollar pkg = true) :
    noDollar (enabledText pkg) = true := by
  rw [enabledText, noDollar_append, h, Bool.true_and]
  decide

/-- The scan is independent of the fuel once the fuel covers the text. -/
theorem enableScanFuel_irrel (pkg : List Char) :
    ∀ f1 s f2, s.length ≤ f1 → s.length ≤ f2 →
      enableScanFuel pkg f1 s = enableScanFuel pkg f2 s := by
  intro f1
  induction f1 with
  | zero =>
    intro s f2 h1 h2
    have hs : s = [] := List.eq_nil_of_length_eq_zero (Nat.le_zero.mp h1)
    subst hs
    cases f2 <;> rfl
  | succ g1 ih =>
    intro s f2 h1 h2
    cases s with
    | nil => cases f2 <;> rfl
    | cons c rest =>
      cases f2 with
      | zero =>
        simp only [List.length_cons] at h2
        omega
      | succ g2 =>
        simp only [enableScanFuel]
        cases hm : matchDisabledLen pkg (c :: rest) with
        | some n2 =>
          simp only [hm]
          obtain ⟨hpos, hle⟩ := matchDisabledLen_bounds pkg (c :: rest) n2 hm
          simp only [List.length_cons] at hle h1 h2
          have hlen1 : ((c :: rest).drop n2).length ≤ g1 := by
            simp only [List.length_drop, List.length_cons]
            omega
          have hlen2 : ((c :: rest).drop n2).length ≤ g2 := by
            simp only [List.length_drop, List.length_cons]
            omega
          rw [ih ((c :: rest).drop n2) g2 hlen1 hlen2]
        | none =>
          simp only [hm]
          simp only [List.length_cons] at h1 h2
          rw [ih rest g2 (by omega) (by omega)]

/-- One replacement step at a successful match position. -/
theorem enableScanFuel_match_step (pkg s : List Char) (g n : Nat)
    (hm : matchDisabledLen pkg s = some n) :
    enableScanFuel pkg (g + 1) s =
      expandTemplate (s.take n) (enabledText pkg) ++
        enableScanFuel pkg g (s.drop n) := by
  cases s with
  | nil =>
    obtain ⟨hpos, hle⟩ := matchDisabledLen_bounds pkg [] n hm
    simp only [List.length_nil] at hle
    omega
  | cons c rest => simp only [enableScanFuel, hm]

/-- When the whole document matches somewhere and the template is literal,
the replaced text appears in the scan's output. -/
theorem enableScanFuel_contains (pkg : List Char) (hd : noDollar pkg = true) :
    ∀ s f, s.length ≤ f → disabledAnyB pkg s = true →
      ∃ a b, enableScanFuel pkg f s = a ++ enabledText pkg ++ b := by
  intro s
  induction s with
  | nil =>
    intro f hf hany
    exfalso
    simp only [disabledAnyB] at hany
    cases hm : matchDisabledLen pkg [] with
    | none => rw [hm] at hany; exact Bool.noConfusion hany
    | some n =>
      obtain ⟨hpos, hle⟩ := matchDisabledLen_bounds pkg [] n hm
      simp only [List.length_nil] at hle
      omega
  | cons c rest ih =>
    intro f hf hany
    cases f with
    | zero =>
      simp only [List.length_cons] at hf
      omega
    | succ g =>
      simp only [enableScanFuel]
      cases hm : matchDisabledLen pkg (c :: rest) with
      | some n =>
        simp only [hm]
        refine ⟨[], enableScanFuel pkg g ((c :: rest).drop n), ?_⟩
        rw [expandTemplate_noDollar _ _ (noDollar_enabledText pkg hd)]
        simp
      | none =>
        simp only [hm]
        have hany2 : disabledAnyB pkg rest = true := by
          simp only [disabledAnyB, Bool.or_eq_true] at hany
          rcases hany with h1 | h2
          · rw [hm] at h1
            exact Bool.noConfusion h1
          · exact h2
        have hg : rest.length ≤ g := by
          simp only [List.length_cons] at hf
          omega
        obtain ⟨a, b, hab⟩ := ih g hg hany2
        exact ⟨c :: a, b, by simp [hab]⟩

/-- The scan copies a prefix in which the entry pattern never starts. -/
theorem enableScanFuel_skip (pkg : List Char) :
    ∀ u rest f, (u ++ rest).length ≤ f →
      (∀ q, q < u.length →
        SWb (pkg ++ (".enable").toList) ((u ++ rest).drop q) = false) →
      enableScanFuel pkg f (u ++ rest) =
        u ++ enableScanFuel pkg (f - u.length) rest := by
  intro u
  induction u with
  | nil =>
    intro rest f hf hq
    simp
  | cons c u2 ih =>
    intro rest f hf hq
    cases f with
    | zero =>
      simp only [List.cons_append, List.length_cons] at hf
      omega
    | succ g =>
      have h0 := hq 0 (by simp)
      simp only [List.drop_zero] at h0
      have hm : matchDisabledLen pkg ((c :: u2) ++ rest) = none :=
        matchDisabledLen_none_of _ _ h0
      rw [List.cons_append] at hm
      have hf2 : (u2 ++ rest).length ≤ g := by
        simp only [List.cons_append, List.length_cons] at hf
        omega
      have hq2 : ∀ q, q < u2.length →
          SWb (pkg ++ (".enable").toList) ((u2 ++ rest).drop q) = false := by
        intro q hq3
        have := hq (q + 1) (by simp only [List.length_cons]; omega)
        simpa using this
      simp only [List.cons_append, enableScanFuel, List.append_eq, hm]
      rw [ih rest g hf2 hq2]
      simp only [List.length_cons, Nat.succ_sub_succ]

/-- The head match on the canonical disabled text. -/
theorem matchDisabledLen_canonical (pkg v : List Char) :
    matchDisabledLen pkg (disabledText pkg ++ v) =
      some (disabledText pkg).length := by
  have h16 : (disabledText pkg).length = pkg.length + 16 := by
    have hl : ((".enable = false;").toList).length = 16 := by decide
    simp only [disabledText, List.length_append, hl]
  rw [h16]
  apply (matchDisabledLen_some_iff pkg _ _).mpr
  refine ⟨[' '], [' '], [], v, ?_, ?_, ?_, ?_, ?_⟩
  · intro c hc
    simp only [List.mem_singleton] at hc
    subst hc
    decide
  · intro c hc
    simp only [List.mem_singleton] at hc
    subst hc
    decide
  · intro c hc
    exact absurd hc (List.not_mem_nil c)
  · have hx : (".enable = false;").toList =
        (".enable").toList ++
          ([' '] ++ '=' :: ([' '] ++ ("false").toList ++ ([] ++ [';']))) := by
      decide
    simp only [disabledText, hx, List.append_assoc, List.nil_append,
      List.cons_append, List.singleton_append]
  · simp only [List.length_singleton, List.length_nil]

/-- Full description of the replace-all scan on a document split into a
match-free prefix `u`, a canonical disabled declaration and a tail: the
prefix is copied, the declaration is rewritten to the literal template, and
the scan continues on the tail. -/
theorem enableScanAll_decomp (pkg u v : List Char) (hd : noDollar pkg = true)
    (hq : ∀ q, q < u.length →
      SWb (pkg ++ (".enable").toList)
        ((u ++ (disabledText pkg ++ v)).drop q) = false) :
    enableScanAll pkg (u ++ (disabledText pkg ++ v)) =
      u ++ (enabledText pkg ++ enableScanAll pkg v) := by
  have h16 : (disabledText pkg).length = pkg.length + 16 := by
    have hl : ((".enable = false;").toList).length = 16 := by decide
    simp only [disabledText, List.length_append, hl]
  rw [enableScanAll]
  rw [enableScanFuel_skip pkg u (disabledText pkg ++ v) _ le_rfl hq]
  have hg : (u ++ (disabledText pkg ++ v)).length - u.length =
      ((disabledText pkg ++ v).length - 1) + 1 := by
    simp only [List.length_append, h16]
    omega
  rw [hg]
  rw [enableScanFuel_match_step pkg (disabledText pkg ++ v) _ _
    (matchDisabledLen_canonical pkg v)]
  rw [List.take_left, List.drop_left]
  rw [expandTemplate_noDollar _ _ (noDollar_enabledText pkg hd)]
  congr 2
  rw [enableScanAll]
  apply enableScanFuel_irrel
  · simp only [List.length_append, h16]
    omega
  · exact le_rfl

theorem lastBraceIndex_some_drop (s : List Char) (k : Nat)
    (h : lastBraceIndex s = some k) : ∃ w, s.drop k = '\x7d' :: w := by
  induction s generalizing k with
  | nil => exact Option.noConfusion h
  | cons c rest ih =>
    simp only [lastBraceIndex] at h
    cases hl : lastBraceIndex rest with
    | some m =>
      rw [hl] at h
      injection h with h
      subst h
      obtain ⟨w, hw⟩ := ih m hl
      exact ⟨w, by simpa using hw⟩
    | none =>
      rw [hl] at h
      by_cases hc : c = '\x7d'
      · rw [if_pos hc] at h
        injection h with h
        subst h
        exact ⟨rest, by simp [hc]⟩
      · rw [if_neg hc] at h
        exact Option.noConfusion h

theorem lastBraceIndex_none_iff (s : List Char) :
    lastBraceIndex s = none ↔ ∀ j, ¬ ∃ w, s.drop j = '\x7d' :: w := by
  induction s with
  | nil =>
    simp only [lastBraceIndex, List.drop_nil]
    exact ⟨fun _ j hj => List.noConfusion hj.choose_spec, fun _ => trivial⟩
  | cons c rest ih =>
    simp only [lastBraceIndex]
    cases hl : lastBraceIndex rest with
    | some m =>
      simp only [hl]
      constructor
      · rintro ⟨⟩
      · intro h
        exfalso
        obtain ⟨w, hw⟩ := lastBraceIndex_some_drop rest m hl
        exact h (m + 1) ⟨w, by simpa using hw⟩
    | none =>
      simp only [hl]
      by_cases hc : c = '\x7d'
      · rw [if_pos hc]
        constructor
        · rintro ⟨⟩
        · intro h
          exact absurd ⟨rest, by simp [hc]⟩ (h 0)
      · rw [if_neg hc]
        constructor
        · rintro - j ⟨w, hw⟩
          cases j with
          | zero =>
            simp only [List.drop_zero] at hw
            injection hw with h1 h2
            exact hc h1
          | succ j2 =>
            exact ((ih).mp hl) j2 ⟨w, by simpa using hw⟩
        · exact fun _ => rfl

theorem lastBraceIndex_some_iff (s : List Char) (k : Nat) :
    lastBraceIndex s = some k ↔ LastBraceAt s k := by
  simp only [LastBraceAt]
  induction s generalizing k with
  | nil =>
    simp only [lastBraceIndex, List.drop_nil]
    constructor
    · rintro ⟨⟩
    · rintro ⟨⟨w, hw⟩, -⟩
      exact List.noConfusion hw
  | cons c rest ih =>
    simp only [lastBraceIndex]
    cases hl : lastBraceIndex rest with
    | some m =>
      simp only [hl]
      obtain ⟨w0, hw0⟩ := lastBraceIndex_some_drop rest m hl
      constructor
      · intro h
        injection h with h
        subst h
        obtain ⟨⟨w1, hw1⟩, hmax⟩ := (ih m).mp hl
        refine ⟨⟨w1, by simpa using hw1⟩, ?_⟩
        intro j hj
        rintro ⟨w, hw⟩
        cases j with
        | zero => omega
        | succ j2 => exact hmax j2 (by omega) ⟨w, by simpa using hw⟩
      · rintro ⟨⟨w, hw⟩, hmaxk⟩
        cases k with
        | zero =>
          exfalso
          exact hmaxk (m + 1) (Nat.succ_pos m) ⟨w0, by simpa using hw0⟩
        | succ k2 =>
          have hk2 : lastBraceIndex rest = some k2 := by
            apply (ih k2).mpr
            refine ⟨⟨w, by simpa using hw⟩, ?_⟩
            intro j hj
            rintro ⟨w2, hw2⟩
            exact hmaxk (j + 1) (by omega) ⟨w2, by simpa using hw2⟩
          rw [hl] at hk2
          injection hk2 with hk2
          rw [hk2]
    | none =>
      simp only [hl]
      by_cases hc : c = '\x7d'
      · rw [if_pos hc]
        constructor
        · intro h
          injection h with h
          subst h
          refine ⟨⟨rest, by simp [hc]⟩, ?_⟩
          intro j hj
          rintro ⟨w, hw⟩
          cases j with
          | zero => omega
          | succ j2 =>
            exact ((lastBraceIndex_none_iff rest).mp hl) j2 ⟨w, by simpa using hw⟩
        · rintro ⟨⟨w, hw⟩, hmax⟩
          cases k with
          | zero => rfl
          | succ k2 =>
            exfalso
            exact ((lastBraceIndex_none_iff rest).mp hl) k2 ⟨w, by simpa using hw⟩
      · rw [if_neg hc]
        constructor
        · rintro ⟨⟩
        · rintro ⟨⟨w, hw⟩, hmax⟩
          exfalso
          cases k with
          | zero =>
            simp only [List.drop_zero] at hw
            injection hw with h1 h2
            exact hc h1
          | succ k2 =>
            exact ((lastBraceIndex_none_iff rest).mp hl) k2 ⟨w, by simpa using hw⟩

theorem allWsP_nil : AllWsP [] :=
  fun c hc => absurd hc (List.not_mem_nil c)

theorem allWsP_space : AllWsP [' '] := by
  intro c hc
  simp only [List.mem_singleton] at hc
  subst hc
  decide

/-- The head matcher agrees with the declarative marker shape. -/
theorem markerAt_iff (name s : List Char) (i n : Nat) :
    matchCatLen name (s.drop i) = some n ↔ MarkerAt name s i (i + n) := by
  rw [matchCatLen_some_iff, MarkerAt]
  constructor
  · rintro ⟨sp1, sp2, v, h1, h2, heq, rfl⟩
    exact ⟨sp1, sp2, v, h1, h2, by rw [heq]; simp [List.append_assoc], by omega⟩
  · rintro ⟨sp1, sp2, v, h1, h2, heq, hj⟩
    exact ⟨sp1, sp2, v, h1, h2, by rw [heq]; simp [List.append_assoc], by omega⟩

theorem markerAt_exists_iff (name s : List Char) (i : Nat) :
    (∃ j, MarkerAt name s i j) ↔ matchCatLen name (s.drop i) ≠ none := by
  constructor
  · rintro ⟨j, sp1, sp2, v, h1, h2, heq, hj⟩
    have hsome : matchCatLen name (s.drop i) =
        some (name.length + sp1.length + sp2.length + 2) :=
      (matchCatLen_some_iff _ _ _).mpr
        ⟨sp1, sp2, v, h1, h2, by rw [heq]; simp [List.append_assoc], rfl⟩
    simp [hsome]
  · intro h
    cases hm : matchCatLen name (s.drop i) with
    | none => exact absurd hm h
    | some n => exact ⟨i + n, (markerAt_iff name s i n).mp hm⟩

/-- A leftmost declarative marker determines the locator's result. -/
theorem findCatEnd_eq_of_markerAt (name s : List Char) (i j : Nat)
    (hm : MarkerAt name s i j)
    (hmin : ∀ i', i' < i → ¬ ∃ j', MarkerAt name s i' j') :
    findCatEnd name s = some j := by
  obtain ⟨sp1, sp2, v, a1, a2, heq, hjj⟩ := hm
  have hsome : matchCatLen name (s.drop i) =
      some (name.length + sp1.length + sp2.length + 2) :=
    (matchCatLen_some_iff _ _ _).mpr
      ⟨sp1, sp2, v, a1, a2, by rw [heq]; simp [List.append_assoc], rfl⟩
  apply (findCatEnd_some_iff name s j).mpr
  refine ⟨i, name.length + sp1.length + sp2.length + 2, hsome, by omega, ?_⟩
  intro i' hi'
  cases hmm : matchCatLen name (s.drop i') with
  | none => rfl
  | some n' =>
    exact absurd ⟨i' + n', (markerAt_iff name s i' n').mp hmm⟩ (hmin i' hi')

theorem markerAt_leftmost_eq (name s : List Char) (j0 i j : Nat)
    (hf : findCatEnd name s = some j0)
    (hm : MarkerAt name s i j)
    (hmin : ∀ i', i' < i → ¬ ∃ j', MarkerAt name s i' j') : j = j0 := by
  have h2 := findCatEnd_eq_of_markerAt name s i j hm hmin
  rw [hf] at h2
  injection h2 with h2
  exact h2.symm

theorem closeAt_iff_SWb (t : List Char) (e : Nat) :
    CloseAt t e ↔ SWb closeMarker (t.drop e) = true := by
  rw [SWb_iff, CloseAt]
  constructor
  · rintro ⟨w, hw⟩
    exact ⟨w, by rw [hw]; rfl⟩
  · rintro ⟨w, hw⟩
    exact ⟨w, by rw [hw]; rfl⟩

theorem not_closeAt_of (t : List Char) (e : Nat)
    (h : SWb closeMarker (t.drop e) = false) : ¬ CloseAt t e := by
  intro hc
  rw [(closeAt_iff_SWb t e).mp hc] at h
  exact Bool.noConfusion h

theorem closeAt_first_eq (t : List Char) (e0 e : Nat)
    (he : indexOfSub closeMarker t = some e0)
    (hc : CloseAt t e) (hmin : ∀ e', e' < e → ¬ CloseAt t e') : e = e0 := by
  obtain ⟨h1, hmin0⟩ := (indexOfSub_some_iff _ _ _).mp he
  rcases Nat.lt_trichotomy e e0 with h | h | h
  · have h2 := hmin0 e h
    rw [(closeAt_iff_SWb t e).mp hc] at h2
    exact Bool.noConfusion h2
  · exact h
  · exact absurd ((closeAt_iff_SWb t e0).mpr h1) (hmin e0 h)

theorem no_brace_iff (s : List Char) :
    ('\x7d' ∈ s → False) ↔ ∀ j, ¬ ∃ w, s.drop j = '\x7d' :: w := by
  constructor
  · rintro h j ⟨w, hw⟩
    apply h
    have hmem : '\x7d' ∈ s.drop j := by
      rw [hw]
      exact List.mem_cons_self _ _
    exact List.mem_of_mem_drop hmem
  · intro h hmem
    obtain ⟨u, w, rfl⟩ := List.append_of_mem hmem
    exact h u.length ⟨w, List.drop_left u ('\x7d' :: w)⟩

/-- The reported boolean of `EnablePackage` is the match test. -/
theorem enablePackage_fst (pkg s : List Char) :
    (EnablePackage pkg s).1 = disabledAnyB pkg s := by
  rw [EnablePackage]
  by_cases h : disabledAnyB pkg s = true
  · simp [h]
  · have h2 : disabledAnyB pkg s = false := by simpa using h
    simp [h2]

/-- Claim C1, counterexample: upsert is not idempotent.  On the document
`cat = { };` followed by a disabled `pkg` entry outside the category, the
first upsert adds an enabled entry inside the category and leaves the
outside entry untouched; the second upsert finds the entry present and
rewrites the outside disabled entry, so the second result differs from the
first. -/
theorem claim_C1_counterexample :
    AddOrEnablePackage ("cat").toList ("pkg").toList
        ((AddOrEnablePackage ("cat").toList ("pkg").toList
          ("cat = \x7b\n\x7d;\npkg.enable = false;\n").toList).2) ≠
      AddOrEnablePackage ("cat").toList ("pkg").toList
        ("cat = \x7b\n\x7d;\npkg.enable = false;\n").toList := by decide

/-- Claim C1, amended: upsert is idempotent exactly on settled documents:
whenever the category pattern matches, the entry is probed inside it, and no
disabled-entry pattern matches anywhere, upsert succeeds and returns
byte-identical content, so a repeated upsert that has reached this state is
a no-op. -/
theorem claim_C1_amended (category packageName s : List Char)
    (h1 : CategoryExists category s = true)
    (h2 : PackageExistsInCategory category packageName s = true)
    (h3 : disabledAnyB packageName s = false) :
    AddOrEnablePackage category packageName s = (none, s) := by
  rw [AddOrEnablePackage, if_pos h1, if_pos h2, EnablePackage,
    if_neg (by simp [h3])]

/-- Claim C1, witness for the amended statement at a settled document. -/
theorem claim_C1_witness :
    AddOrEnablePackage ("c").toList ("p").toList
        ("c = \x7b\n  p.enable = true;\n\x7d;\n").toList =
      (none, ("c = \x7b\n  p.enable = true;\n\x7d;\n").toList) :=
  claim_C1_amended _ _ _ (by decide) (by decide) (by decide)

/-- Claim C2: on a document whose category has no closing marker, the
add-entry mutator fails with its typed error, yet the upsert orchestrator
discards that error and reports success with the content unchanged — the
code drops the mutator's return value instead of surfacing it. -/
theorem claim_C2_error_swallowed :
    AddPackageToCategory ("browsers").toList ("firefox").toList
        ("browsers = \x7b").toList =
      (some (NixErr.categoryBraceNotFound ("browsers").toList),
        ("browsers = \x7b").toList)
  ∧ AddOrEnablePackage ("browsers").toList ("firefox").toList
        ("browsers = \x7b").toList =
      (none, ("browsers = \x7b").toList) :=
  ⟨by decide, by decide⟩

/-- Claim C3, counterexample: section-name matching is not exact.  On a
document containing only `webapps = ` and an opening brace, the probe for
`apps` succeeds, because the quoted name is not anchored and matches inside
the longer identifier. -/
theorem claim_C3_counterexample :
    CategoryExists ("apps").toList ("webapps = \x7b").toList = true := by decide

/-- Claim C3, amended: section-name matching is case-sensitive and literal
but unanchored: the probe returns true exactly when the name, optional
whitespace, the equals sign, optional whitespace and an opening brace occur
at some position of the document — including positions inside a longer
identifier. -/
theorem claim_C3_amended (name s : List Char) :
    CategoryExists name s = true ↔
      ∃ u sp1 sp2 v, AllWsP sp1 ∧ AllWsP sp2 ∧
        s = u ++ (name ++ (sp1 ++ '=' :: (sp2 ++ '\x7b' :: v))) := by
  show (findCatEnd name s).isSome = true ↔ _
  rw [findCatEnd_isSome_iff]
  constructor
  · rintro ⟨i, hi⟩
    obtain ⟨n, hn⟩ := Option.ne_none_iff_exists'.mp hi
    obtain ⟨sp1, sp2, v, h1, h2, heq, -⟩ := (matchCatLen_some_iff _ _ _).mp hn
    refine ⟨s.take i, sp1, sp2, v, h1, h2, ?_⟩
    rw [← heq]
    exact (List.take_append_drop i s).symm
  · rintro ⟨u, sp1, sp2, v, h1, h2, rfl⟩
    refine ⟨u.length, ?_⟩
    rw [List.drop_left]
    rw [(matchCatLen_some_iff _ _ _).mpr ⟨sp1, sp2, v, h1, h2, rfl, rfl⟩]
    simp

/-- Claim C4: mutations are atomic.  Whenever `AddPackageToCategory`,
`CreateCategory` or `EnsureAppsSectionExists` reports an error, the content
it returns is byte-identical to its input: no mutator leaves a partial
splice. -/
theorem claim_C4_mutators_atomic (category packageName s : List Char) :
    ((AddPackageToCategory category packageName s).1 ≠ none →
      (AddPackageToCategory category packageName s).2 = s)
  ∧ ((CreateCategory category packageName s).1 ≠ none →
      (CreateCategory category packageName s).2 = s)
  ∧ ((EnsureAppsSectionExists s).1 ≠ none →
      (EnsureAppsSectionExists s).2 = s) := by
  refine ⟨?_, ?_, ?_⟩
  · intro h
    cases hf : findCatEnd category s with
    | none => simp [AddPackageToCategory, hf]
    | some j =>
      cases he : indexOfSub closeMarker (s.drop j) with
      | none => simp [AddPackageToCategory, hf, he]
      | some e =>
        exfalso
        apply h
        simp [AddPackageToCategory, hf, he]
  · intro h
    cases hf : findCatEnd appsName s with
    | none => simp [CreateCategory, hf]
    | some j =>
      exfalso
      apply h
      simp [CreateCategory, hf]
  · intro h
    by_cases hc : CategoryExists appsName s = true
    · exfalso
      apply h
      simp [EnsureAppsSectionExists, hc]
    · cases hl : lastBraceIndex s with
      | none => simp [EnsureAppsSectionExists, hc, hl]
      | some k =>
        exfalso
        apply h
        simp [EnsureAppsSectionExists, hc, hl]

/-- Claim C4, witness: on the empty document all three mutators fail and
each returns the content unchanged. -/
theorem claim_C4_witness :
    (AddPackageToCategory ("b").toList ("f").toList ([] : List Char)).2 = []
  ∧ (CreateCategory ("b").toList ("f").toList ([] : List Char)).2 = []
  ∧ (EnsureAppsSectionExists ([] : List Char)).2 = [] :=
  ⟨(claim_C4_mutators_atomic ("b").toList ("f").toList []).1 (by decide),
   (claim_C4_mutators_atomic ("b").toList ("f").toList []).2.1 (by decide),
   (claim_C4_mutators_atomic ("b").toList ("f").toList []).2.2 (by decide)⟩

/-- Claim C5, counterexample: enable is not monotonic for every entry name.
For the entry `false;$z` — whose name makes the replacement template expand
a `$z` reference to the empty string — the document contains the entry's
canonical enabled declaration, the upsert succeeds, and afterwards that
enabled declaration no longer occurs anywhere. -/
theorem claim_C5_counterexample :
    hasSubB (enabledText ("false;$z").toList)
        ("c = \x7bfalse;$z.enable\x7d;false;$z.enable = false;$z.enable = true;").toList
      = true
  ∧ (AddOrEnablePackage ("c").toList ("false;$z").toList
      ("c = \x7bfalse;$z.enable\x7d;false;$z.enable = false;$z.enable = true;").toList).1
      = none
  ∧ hasSubB (enabledText ("false;$z").toList)
      ((AddOrEnablePackage ("c").toList ("false;$z").toList
        ("c = \x7bfalse;$z.enable\x7d;false;$z.enable = false;$z.enable = true;").toList).2)
      = false :=
  ⟨by decide, by decide, by decide⟩

/-- Claim C5, amended: enable is monotonic for entry names without a dollar
sign (for which the replacement template is literal): if the canonical
enabled declaration of the entry occurs in the document, it still occurs
after any upsert for that entry, in any category and whether the upsert
succeeds or fails. -/
theorem claim_C5_amended (category packageName s : List Char)
    (hd : noDollar packageName = true)
    (hen : hasSubB (enabledText packageName) s = true) :
    hasSubB (enabledText packageName)
      (AddOrEnablePackage category packageName s).2 = true := by
  by_cases h1 : CategoryExists category s = true
  · by_cases h2 : PackageExistsInCategory category packageName s = true
    · rw [AddOrEnablePackage, if_pos h1, if_pos h2]
      show hasSubB (enabledText packageName) (EnablePackage packageName s).2 = true
      rw [EnablePackage]
      by_cases h3 : disabledAnyB packageName s = true
      · rw [if_pos h3]
        show hasSubB (enabledText packageName) (enableScanAll packageName s) = true
        obtain ⟨a, b, hab⟩ :=
          enableScanFuel_contains packageName hd s s.length le_rfl h3
        rw [enableScanAll, hab]
        exact (hasSubB_iff _ _).mpr ⟨a, b, rfl⟩
      · rw [if_neg h3]
        exact hen
    · rw [AddOrEnablePackage, if_pos h1, if_neg h2]
      show hasSubB (enabledText packageName)
        (AddPackageToCategory category packageName s).2 = true
      cases hf : findCatEnd category s with
      | none => simpa [AddPackageToCategory, hf] using hen
      | some j =>
        cases he : indexOfSub closeMarker (s.drop j) with
        | none => simpa [AddPackageToCategory, hf, he] using hen
        | some e =>
          have hsplit : packageContent packageName =
              ("\n      ").toList ++
                (enabledText packageName ++ ("\n    ").toList) := by
            rw [packageContent, enabledText]
            have hz : (".enable = true;\n    ").toList =
                (".enable = true;").toList ++ ("\n    ").toList := by decide
            rw [hz]
            simp [List.append_assoc]
          simp only [AddPackageToCategory, hf, he]
          apply (hasSubB_iff _ _).mpr
          refine ⟨s.take (j + e) ++ ("\n      ").toList,
            ("\n    ").toList ++ s.drop (j + e), ?_⟩
          rw [hsplit]
          simp [List.append_assoc]
  · rw [AddOrEnablePackage, if_neg h1]
    show hasSubB (enabledText packageName)
      (CreateCategory category packageName s).2 = true
    cases hf : findCatEnd appsName s with
    | none => simpa [CreateCategory, hf] using hen
    | some j =>
      have hsplit : newCategoryText category packageName =
          (("\n    ").toList ++ (category ++ (" = \x7b\n      ").toList)) ++
            (enabledText packageName ++ ("\n    \x7d;\n").toList) := by
        rw [newCategoryText, enabledText]
        have hz : (".enable = true;\n    \x7d;\n").toList =
            (".enable = true;").toList ++ ("\n    \x7d;\n").toList := by decide
        rw [hz]
        simp [List.append_assoc]
      simp only [CreateCategory, hf]
      apply (hasSubB_iff _ _).mpr
      refine ⟨s.take j ++
        (("\n    ").toList ++ (category ++ (" = \x7b\n      ").toList)),
        ("\n    \x7d;\n").toList ++ s.drop j, ?_⟩
      rw [hsplit]
      simp [List.append_assoc]

/-- Claim C5, witness for the amended statement: an enabled entry stays
enabled across an upsert that rewrites a disabled duplicate. -/
theorem claim_C5_witness :
    noDollar ("p").toList = true
  ∧ hasSubB (enabledText ("p").toList)
      ("c = \x7b\np.enable = true;\n\x7d;\np.enable = false;\n").toList = true
  ∧ hasSubB (enabledText ("p").toList)
      ((AddOrEnablePackage ("c").toList ("p").toList
        ("c = \x7b\np.enable = true;\n\x7d;\np.enable = false;\n").toList).2) = true :=
  ⟨by decide, by decide, claim_C5_amended _ _ _ (by decide) (by decide)⟩

/-- Claim C6, counterexample: for the entry name `$0` the rewrite is not the
canonical enabled text.  The enable mutator reports a change, but Go's
template expansion substitutes the whole match for `$0`, so the result still
contains the disabled declaration instead of the canonical
`$0.enable = true;`. -/
theorem claim_C6_counterexample :
    (EnablePackage ("$0").toList ("$0.enable = false;").toList).1 = true
  ∧ (EnablePackage ("$0").toList ("$0.enable = false;").toList).2 =
      ("$0.enable = false;.enable = true;").toList
  ∧ hasSubB (("$0").toList ++ (".enable = false;").toList)
      ((EnablePackage ("$0").toList ("$0.enable = false;").toList).2) = true :=
  ⟨by decide, by decide, by decide⟩

/-- Claim C6, amended: for entry names without a dollar sign, the enable
mutator returns true exactly when the whitespace-tolerant disabled pattern
occurs in the document; on false the content is unchanged, and on true the
canonical enabled text has been spliced into the content. -/
theorem claim_C6_amended (packageName s : List Char)
    (hd : noDollar packageName = true) :
    ((EnablePackage packageName s).1 = true ↔
      ∃ u sp1 sp2 sp3 v, AllWsP sp1 ∧ AllWsP sp2 ∧ AllWsP sp3 ∧
        s = u ++ ((packageName ++ (".enable").toList) ++
          (sp1 ++ '=' :: (sp2 ++ ("false").toList ++ (sp3 ++ ';' :: v)))))
  ∧ ((EnablePackage packageName s).1 = false →
      (EnablePackage packageName s).2 = s)
  ∧ ((EnablePackage packageName s).1 = true →
      ∃ a b, (EnablePackage packageName s).2 =
        a ++ enabledText packageName ++ b) := by
  refine ⟨?_, ?_, ?_⟩
  · rw [enablePackage_fst, disabledAnyB_iff]
    constructor
    · rintro ⟨i, hi⟩
      obtain ⟨n, hn⟩ := Option.ne_none_iff_exists'.mp hi
      obtain ⟨sp1, sp2, sp3, v, a1, a2, a3, heq, -⟩ :=
        (matchDisabledLen_some_iff _ _ _).mp hn
      refine ⟨s.take i, sp1, sp2, sp3, v, a1, a2, a3, ?_⟩
      rw [← heq]
      exact (List.take_append_drop i s).symm
    · rintro ⟨u, sp1, sp2, sp3, v, a1, a2, a3, rfl⟩
      refine ⟨u.length, ?_⟩
      rw [List.drop_left]
      rw [(matchDisabledLen_some_iff _ _ _).mpr
        ⟨sp1, sp2, sp3, v, a1, a2, a3, rfl, rfl⟩]
      simp
  · intro h
    rw [enablePackage_fst] at h
    rw [EnablePackage, if_neg (by simp [h])]
  · intro h
    rw [enablePackage_fst] at h
    rw [EnablePackage, if_pos h]
    show ∃ a b, enableScanAll packageName s = a ++ enabledText packageName ++ b
    rw [enableScanAll]
    exact enableScanFuel_contains packageName hd s s.length le_rfl h

/-- Claim C6, witness for the amended statement at a concrete disabled
entry. -/
theorem claim_C6_witness :
    (EnablePackage ("p").toList ("p.enable = false;").toList).1 = true :=
  (claim_C6_amended ("p").toList ("p.enable = false;").toList (by decide)).1.mpr
    ⟨[], [' '], [' '], [], [], allWsP_space, allWsP_space, allWsP_nil, by decide⟩

/-- Claim C7: `CreateCategory` requires the apps container: with no
container-opening marker anywhere it returns the container-not-found error
and the content unchanged; with a leftmost marker ending at offset `j` it
splices the complete new section block — opening marker, one enabled entry,
closing marker, see `newCategoryText` — exactly at `j`, immediately after
the container's opening brace, preserving all surrounding text. -/
theorem claim_C7_create_section (category packageName s : List Char) :
    ((¬ ∃ i j, MarkerAt appsName s i j) →
      CreateCategory category packageName s = (some NixErr.appsNotFound, s))
  ∧ (∀ i j, MarkerAt appsName s i j →
      (∀ i', i' < i → ¬ ∃ j', MarkerAt appsName s i' j') →
      CreateCategory category packageName s =
        (none, s.take j ++ newCategoryText category packageName ++ s.drop j)) := by
  constructor
  · intro h
    have hf : findCatEnd appsName s = none := by
      apply (findCatEnd_none_iff appsName s).mpr
      intro i
      cases hm : matchCatLen appsName (s.drop i) with
      | none => rfl
      | some n =>
        exfalso
        exact h ⟨i, i + n, (markerAt_iff appsName s i n).mp hm⟩
    unfold CreateCategory
    simp only [hf]
  · intro i j hm hmin
    have hf := findCatEnd_eq_of_markerAt appsName s i j hm hmin
    unfold CreateCategory
    simp only [hf]

/-- Claim C7, witness: creating a section in an empty container splices the
block right after the container's opening brace. -/
theorem claim_C7_witness :
    CreateCategory ("browsers").toList ("firefox").toList
        ("apps = \x7b\n\x7d").toList =
      (none, (("apps = \x7b\n\x7d").toList).take 8 ++
        newCategoryText ("browsers").toList ("firefox").toList ++
        (("apps = \x7b\n\x7d").toList).drop 8) :=
  (claim_C7_create_section ("browsers").toList ("firefox").toList _).2 0 8
    ⟨[' '], [' '], ("\n\x7d").toList, allWsP_space, allWsP_space, by decide, by decide⟩
    (fun i' hi' => absurd hi' (Nat.not_lt_zero i'))

/-- Claim C8: `EnsureAppsSectionExists` is a no-op success when the
container pattern already matches; otherwise it inserts the empty container
block immediately before the last closing brace of the document, and it
returns the malformed-document error with no mutation exactly when the
document contains no closing brace at all. -/
theorem claim_C8_ensure_container (s : List Char) :
    (CategoryExists appsName s = true → EnsureAppsSectionExists s = (none, s))
  ∧ (CategoryExists appsName s = false → ('\x7d' ∈ s → False) →
      EnsureAppsSectionExists s = (some NixErr.noClosingBrace, s))
  ∧ (∀ k, CategoryExists appsName s = false → LastBraceAt s k →
      EnsureAppsSectionExists s =
        (none, s.take k ++ appsSectionText ++ s.drop k)) := by
  refine ⟨?_, ?_, ?_⟩
  · intro h
    rw [EnsureAppsSectionExists, if_pos h]
  · intro hc hnb
    have hl : lastBraceIndex s = none :=
      (lastBraceIndex_none_iff s).mpr ((no_brace_iff s).mp hnb)
    rw [EnsureAppsSectionExists, if_neg (by simp [hc])]
    simp only [hl]
  · intro k hc hlb
    have hl : lastBraceIndex s = some k := (lastBraceIndex_some_iff s k).mpr hlb
    rw [EnsureAppsSectionExists, if_neg (by simp [hc])]
    simp only [hl]

/-- Claim C8, witness: on a braced document without the container, the empty
container block is inserted before the last closing brace. -/
theorem claim_C8_witness :
    EnsureAppsSectionExists ("\x7b\n\x7d").toList =
      (none, (("\x7b\n\x7d").toList).take 2 ++ appsSectionText ++
        (("\x7b\n\x7d").toList).drop 2) :=
  (claim_C8_ensure_container _).2.2 2 (by decide)
    ((lastBraceIndex_some_iff _ _).mp (by decide))

/-- Claim C9: the entry probe returns true exactly when the literal entry
pattern occurs between the end of the leftmost category-opening marker and
the first closing marker after it, regardless of the entry's boolean; with
no marker, or no closing marker after it, it returns false. -/
theorem claim_C9_entry_probe_exact (category packageName s : List Char) :
    PackageExistsInCategory category packageName s = true ↔
      ∃ i j, MarkerAt category s i j ∧
        (∀ i', i' < i → ¬ ∃ j', MarkerAt category s i' j') ∧
        ∃ e, CloseAt (s.drop j) e ∧
          (∀ e', e' < e → ¬ CloseAt (s.drop j) e') ∧
          ∃ u w, (s.drop j).take e =
            u ++ (packageName ++ (".enable").toList) ++ w := by
  unfold PackageExistsInCategory
  cases hf : findCatEnd category s with
  | none =>
    simp only [hf]
    constructor
    · intro h
      exact Bool.noConfusion h
    · rintro ⟨i, j, hm, -, -⟩
      have h1 := (findCatEnd_none_iff category s).mp hf i
      exact absurd h1 ((markerAt_exists_iff category s i).mp ⟨j, hm⟩)
  | some j0 =>
    simp only [hf]
    obtain ⟨i0, n0, hm0, hj0, hmin0⟩ := (findCatEnd_some_iff category s j0).mp hf
    have hM0 : MarkerAt category s i0 j0 := by
      rw [hj0]
      exact (markerAt_iff category s i0 n0).mp hm0
    have hMin0 : ∀ i', i' < i0 → ¬ ∃ j', MarkerAt category s i' j' := by
      intro i' hi' hj'
      exact ((markerAt_exists_iff category s i').mp hj') (hmin0 i' hi')
    cases he : indexOfSub closeMarker (s.drop j0) with
    | none =>
      simp only [he]
      constructor
      · intro h
        exact Bool.noConfusion h
      · rintro ⟨i, j, hm, hmin, e, hce, -, -⟩
        have hjj : j = j0 := markerAt_leftmost_eq category s j0 i j hf hm hmin
        subst hjj
        have h2 := (indexOfSub_none_iff closeMarker (s.drop j)).mp he e
        rw [(closeAt_iff_SWb _ _).mp hce] at h2
        exact Bool.noConfusion h2
    | some e0 =>
      simp only [he]
      obtain ⟨hsw0, hemin0⟩ :=
        (indexOfSub_some_iff closeMarker (s.drop j0) e0).mp he
      constructor
      · intro h
        obtain ⟨u, w, huw⟩ := (hasSubB_iff _ _).mp h
        refine ⟨i0, j0, hM0, hMin0, e0, (closeAt_iff_SWb _ _).mpr hsw0,
          ?_, u, w, huw⟩
        intro e' he'
        exact not_closeAt_of _ _ (hemin0 e' he')
      · rintro ⟨i, j, hm, hmin, e, hce, hcmin, u, w, huw⟩
        have hjj : j = j0 := markerAt_leftmost_eq category s j0 i j hf hm hmin
        subst hjj
        have hee : e = e0 := closeAt_first_eq _ e0 e he hce hcmin
        subst hee
        exact (hasSubB_iff _ _).mpr ⟨u, w, huw⟩

/-- Claim C9, witness: the probe finds an entry inside its category on a
concrete document. -/
theorem claim_C9_witness :
    PackageExistsInCategory ("c").toList ("x").toList
      ("c = \x7bx.enable = true;\x7d;").toList = true := by
  apply (claim_C9_entry_probe_exact ("c").toList ("x").toList _).mpr
  refine ⟨0, 5, ?_, ?_, 16, ?_, ?_, [], (" = true;").toList, ?_⟩
  · exact ⟨[' '], [' '], ("x.enable = true;\x7d;").toList,
      allWsP_space, allWsP_space, by decide, by decide⟩
  · intro i' hi'
    exact absurd hi' (Nat.not_lt_zero i')
  · exact ⟨[], by decide⟩
  · intro e' he'
    have hball : ∀ x, x < 16 →
        SWb closeMarker
          (((("c = \x7bx.enable = true;\x7d;").toList).drop 5).drop x) = false := by
      decide
    exact not_closeAt_of _ e' (hball e' he')
  · decide

/-- Claim C10: the enable pass of the upsert's entry-present branch is
document-global.  For any document split as a pattern-free prefix `u`, a
canonical disabled declaration of the entry, and a tail `v` — with no
constraint tying the declaration's position to the category — the upsert
succeeds, copies `u`, rewrites the declaration to the canonical enabled
text, and continues the same rewrite over all of `v`. -/
theorem claim_C10_enable_global (category packageName u v : List Char)
    (hd : noDollar packageName = true)
    (h1 : CategoryExists category
      (u ++ (disabledText packageName ++ v)) = true)
    (h2 : PackageExistsInCategory category packageName
      (u ++ (disabledText packageName ++ v)) = true)
    (h3 : ∀ q, q < u.length →
      SWb (packageName ++ (".enable").toList)
        ((u ++ (disabledText packageName ++ v)).drop q) = false) :
    AddOrEnablePackage category packageName
        (u ++ (disabledText packageName ++ v)) =
      (none, u ++ (enabledText packageName ++ enableScanAll packageName v)) := by
  rw [AddOrEnablePackage, if_pos h1, if_pos h2]
  have hany : disabledAnyB packageName
      (u ++ (disabledText packageName ++ v)) = true := by
    apply (disabledAnyB_iff _ _).mpr
    refine ⟨u.length, ?_⟩
    rw [List.drop_left, matchDisabledLen_canonical]
    simp
  rw [EnablePackage, if_pos hany]
  show (none, enableScanAll packageName (u ++ (disabledText packageName ++ v))) = _
  rw [enableScanAll_decomp packageName u v hd h3]

/-- Claim C10, witness: an upsert for an entry already probed inside its
category also rewrites a same-named disabled declaration after the
category's closing marker. -/
theorem claim_C10_witness :
    AddOrEnablePackage ("c").toList ("x").toList
        (("c = \x7b\n").toList ++
          (disabledText ("x").toList ++ ("\n\x7d;\nx.enable = false;\n").toList)) =
      (none, ("c = \x7b\n").toList ++
        (enabledText ("x").toList ++
          enableScanAll ("x").toList ("\n\x7d;\nx.enable = false;\n").toList)) :=
  claim_C10_enable_global _ _ _ _ (by decide) (by decide) (by decide) (by decide)

end Nixconfig
